import Mathlib

/-!
Verification of the share serialization core of the `sharks` crate
(`src/share.rs`): the two conversions between a `Share` and a flat byte
sequence. Bytes are modelled as `Fin 256` (Rust `u8`); the unchecked
slice index `s[0]` in `From<&[u8]> for Share`, which panics on an empty
slice, is modelled by returning `Option.none` on the empty list.
-/

/-- Modelled from the spec: the field element `GF256` lives in `src/field.rs`,
which is not part of the sources given; the spec describes it as a value type
wrapping exactly one byte with value equality, and `share.rs` uses only its
raw byte (`.0`) and its constructor. -/
structure GF256 where
  val : Fin 256
deriving DecidableEq, Repr

/-- `Share` from `src/share.rs`: an evaluation point `x` and the ordered
sequence `y` of polynomial values, one per secret byte. -/
structure Share where
  x : GF256
  y : List GF256
deriving DecidableEq, Repr

/-- `impl From<&Share> for Vec<u8>`: push `s.x.0`, then extend with the raw
bytes of `s.y` in order. -/
def Share.toBytes (s : Share) : List (Fin 256) :=
  s.x.val :: s.y.map (fun p => p.val)

/-- `impl From<&[u8]> for Share`: `x = GF256(s[0])`, `y` collected from
`s[1..]`. The unchecked index `s[0]` panics on an empty slice, modelled
here as `none`. -/
def Share.fromBytes : List (Fin 256) → Option Share
  | [] => none
  | b :: rest => some { x := ⟨b⟩, y := rest.map (fun p => ⟨p⟩) }

theorem GF256.val_injective : Function.Injective GF256.val := by
  intro a b h
  cases a; cases b; simpa using h

/-- C1: decoding the bytes produced by encoding any `Share` (any `x`, any
`y`, including the empty one) yields exactly that `Share` back: same `x`,
same `y` sequence, positional order preserved. -/
theorem Share.decode_encode_roundtrip (s : Share) :
    Share.fromBytes (Share.toBytes s) = some s := by
  cases s with
  | mk x y =>
    simp only [Share.toBytes, Share.fromBytes, List.map_map, Option.some.injEq,
      Share.mk.injEq]
    exact ⟨trivial, List.map_id'' (fun p => rfl) y⟩

/-- C2: the claim asks decode of the empty byte sequence to fail with the
typed error `InvalidShareLength`; in the code `From<&[u8]> for Share`
performs the unchecked index `s[0]` and panics on an empty slice (there is
no `InvalidShareLength` error anywhere in the code). This theorem evaluates
the code at the failing input: decode of `[]` reaches the panic branch and
returns no `Share`. -/
theorem Share.fromBytes_nil_panics : Share.fromBytes [] = none := rfl

/-- C3: encoding a `Share` yields `len(y) + 1` bytes; the byte at offset 0
is the raw byte of `x` and the byte at every offset `i + 1` is the raw byte
of `y[i]` (none past the end). -/
theorem Share.toBytes_layout (s : Share) :
    (Share.toBytes s).length = s.y.length + 1 ∧
    (Share.toBytes s)[0]? = some s.x.val ∧
    ∀ i, (Share.toBytes s)[i + 1]? = s.y[i]?.map GF256.val := by
  refine ⟨by simp [Share.toBytes], by simp [Share.toBytes], fun i => ?_⟩
  simp [Share.toBytes, List.getElem?_map]

/-- C4: decode succeeds on every non-empty byte sequence, giving a `Share`
whose `x` is built from byte 0, whose `y` raw bytes are exactly the
remaining bytes in order, and whose `y` length is the input length minus
one. -/
theorem Share.fromBytes_nonempty (b : List (Fin 256)) (h : b ≠ []) :
    ∃ s : Share, Share.fromBytes b = some s ∧
      b[0]? = some s.x.val ∧
      s.y.map GF256.val = b.tail ∧
      s.y.length = b.length - 1 := by
  cases b with
  | nil => exact absurd rfl h
  | cons b0 rest =>
    refine ⟨{ x := ⟨b0⟩, y := rest.map (fun p => ⟨p⟩) }, rfl, by simp, ?_, by simp⟩
    simp only [List.map_map, List.tail_cons]
    exact List.map_id'' (fun p => rfl) rest

/-- Witness for C4 at the concrete input `[1, 2, 3]`. -/
theorem Share.fromBytes_nonempty_witness :
    ([1, 2, 3] : List (Fin 256)) ≠ [] ∧
    ∃ s : Share, Share.fromBytes [1, 2, 3] = some s ∧
      ([1, 2, 3] : List (Fin 256))[0]? = some s.x.val ∧
      s.y.map GF256.val = ([1, 2, 3] : List (Fin 256)).tail ∧
      s.y.length = ([1, 2, 3] : List (Fin 256)).length - 1 :=
  ⟨by decide, Share.fromBytes_nonempty [1, 2, 3] (by decide)⟩

/-- C5: encode is total: for every `Share`, including one with an empty `y`,
it produces a byte sequence (of length `len(y) + 1`, hence always at least
one byte) without any error or failure branch. -/
theorem Share.toBytes_total (s : Share) :
    ∃ b : List (Fin 256), Share.toBytes s = b ∧ b.length = s.y.length + 1 ∧ b ≠ [] :=
  ⟨Share.toBytes s, rfl, by simp [Share.toBytes], by simp [Share.toBytes]⟩

/-- C6: `encode(Share{x=1, y=[2,3]}) = [1,2,3]` and `decode([1,2,3])` yields
`x=1, y=[2,3]`. -/
theorem Share.literal_case :
    Share.toBytes { x := ⟨1⟩, y := [⟨2⟩, ⟨3⟩] } = [1, 2, 3] ∧
    Share.fromBytes [1, 2, 3] = some { x := ⟨1⟩, y := [⟨2⟩, ⟨3⟩] } := by
  constructor <;> rfl

/-- C7: the zero-length secret is a legal, round-trippable `Share`:
`encode(Share{x=5, y=[]}) = [5]` and `decode([5])` yields `x=5, y=[]`. -/
theorem Share.degenerate_case :
    Share.toBytes { x := ⟨5⟩, y := [] } = [5] ∧
    Share.fromBytes [5] = some { x := ⟨5⟩, y := [] } := by
  constructor <;> rfl

/-- C8: encode and decode are pure and deterministic: two runs on equal
inputs give equal outputs, depending on nothing but the input (both are
plain functions of their argument in this embedding). -/
theorem Share.deterministic (s1 s2 : Share) (b1 b2 : List (Fin 256))
    (hs : s1 = s2) (hb : b1 = b2) :
    Share.toBytes s1 = Share.toBytes s2 ∧
    Share.fromBytes b1 = Share.fromBytes b2 :=
  ⟨hs ▸ rfl, hb ▸ rfl⟩

/-- Witness for C8 at a concrete share and byte list. -/
theorem Share.deterministic_witness :
    ({ x := ⟨1⟩, y := [⟨2⟩] } : Share) = { x := ⟨1⟩, y := [⟨2⟩] } ∧
    ([7] : List (Fin 256)) = [7] ∧
    (Share.toBytes { x := ⟨1⟩, y := [⟨2⟩] } = Share.toBytes { x := ⟨1⟩, y := [⟨2⟩] } ∧
      Share.fromBytes [7] = Share.fromBytes [7]) :=
  ⟨rfl, rfl, Share.deterministic _ _ _ _ rfl rfl⟩

/-- C9: the converse round trip: for every non-empty byte sequence `b`,
encoding the `Share` decoded from `b` reproduces `b` exactly. -/
theorem Share.encode_decode_roundtrip (b : List (Fin 256)) (h : b ≠ []) :
    (Share.fromBytes b).map Share.toBytes = some b := by
  cases b with
  | nil => exact absurd rfl h
  | cons b0 rest =>
    show some (Share.toBytes ⟨⟨b0⟩, rest.map fun p => ⟨p⟩⟩) = some (b0 :: rest)
    simp only [Share.toBytes, List.map_map]
    exact congrArg (fun l => some (b0 :: l)) (List.map_id'' (fun p => rfl) rest)

/-- Witness for C9 at the concrete input `[1, 2, 3]`. -/
theorem Share.encode_decode_roundtrip_witness :
    ([1, 2, 3] : List (Fin 256)) ≠ [] ∧
    (Share.fromBytes [1, 2, 3]).map Share.toBytes = some ([1, 2, 3] : List (Fin 256)) :=
  ⟨by decide, Share.encode_decode_roundtrip [1, 2, 3] (by decide)⟩

/-- C10: encode is injective on `Share` values: equal byte sequences imply
equal `x` and equal `y` sequences, so distinct shares never collide on the
wire. -/
theorem Share.toBytes_injective (s1 s2 : Share)
    (h : Share.toBytes s1 = Share.toBytes s2) : s1.x = s2.x ∧ s1.y = s2.y := by
  cases s1 with
  | mk x1 y1 =>
    cases s2 with
    | mk x2 y2 =>
      simp only [Share.toBytes, List.cons.injEq] at h
      refine ⟨GF256.val_injective h.1, ?_⟩
      exact List.map_injective_iff.mpr GF256.val_injective h.2

/-- Witness for C10 at concrete equal shares. -/
theorem Share.toBytes_injective_witness :
    Share.toBytes { x := ⟨9⟩, y := [⟨4⟩] } = Share.toBytes { x := ⟨9⟩, y := [⟨4⟩] } ∧
    (({ x := ⟨9⟩, y := [⟨4⟩] } : Share).x = ({ x := ⟨9⟩, y := [⟨4⟩] } : Share).x ∧
      ({ x := ⟨9⟩, y := [⟨4⟩] } : Share).y = ({ x := ⟨9⟩, y := [⟨4⟩] } : Share).y) :=
  ⟨rfl, Share.toBytes_injective _ _ rfl⟩
